import Mathlib

/-!
Verification of the PPPoE session-balancing decision engine (src/main.py).

Text is modelled as `List Char` (`Str`).  Python functions that can raise
an exception are modelled as `Option`-valued functions (`none` = the call
raises).  The regular expressions of the source are modelled exactly, at
character level, for the concrete patterns appearing in the code; character
classes follow their ASCII meaning on device output.
-/

set_option linter.unusedVariables false

/-- Strings are modelled as lists of characters. -/
abbrev Str := List Char

/-- Model of the regex class `\d` (ASCII digits). -/
def isDig (c : Char) : Bool := decide (48 ≤ c.toNat ∧ c.toNat ≤ 57)

/-- Model of the regex class `\s` (ASCII whitespace). -/
def isSp (c : Char) : Bool :=
  decide (c.toNat = 32 ∨ c.toNat = 9 ∨ c.toNat = 10 ∨ c.toNat = 13 ∨
          c.toNat = 11 ∨ c.toNat = 12)

/-- Model of the regex class `\S` (non-whitespace). -/
def notSp (c : Char) : Bool := !(isSp c)

/-! ## Decimal rendering and parsing

`intStr` models how a Python f-string renders an `int` (decimal digits with
an optional leading minus sign).  `pyInt?` models `int(token)` on a
whitespace-free token: an optional sign followed by at least one digit
(Python's `int` additionally strips whitespace and allows underscores;
neither can occur in a token produced by `\S+`, which is the only use in
the source). -/

/-- The character of a decimal digit value. -/
def digitChar (n : Nat) : Char := Char.ofNat (48 + n)

/-- Reversed decimal digit list of a positive number, fuel-driven so that it
computes by kernel reduction; fuel `n` is always enough for value `n`. -/
def toDigitsRevFuel : Nat → Nat → List Char
  | 0, _ => []
  | _, 0 => []
  | f + 1, n + 1 => digitChar ((n + 1) % 10) :: toDigitsRevFuel f ((n + 1) / 10)

/-- Decimal rendering of a natural number, as Python's `str` does. -/
def natStr (n : Nat) : Str := if n = 0 then ['0'] else (toDigitsRevFuel n n).reverse

/-- Decimal rendering of an integer, as a Python f-string does. -/
def intStr (d : Int) : Str := if d < 0 then '-' :: natStr (-d).toNat else natStr d.toNat

/-- Numeric value of a digit character. -/
def digitVal (c : Char) : Nat := c.toNat - 48

/-- Value of a reversed digit list. -/
def valRev : Str → Nat
  | [] => 0
  | c :: t => digitVal c + 10 * valRev t

/-- Value of a (forward) digit list. -/
def parseNat (l : Str) : Nat := valRev l.reverse

/-- Model of Python `int(...)` on a whitespace-free token. -/
def pyInt? (l : Str) : Option Int :=
  match l with
  | [] => none
  | c :: t =>
    if c = '-' then
      if (!t.isEmpty) && t.all isDig then some (-(parseNat t : Int)) else none
    else if c = '+' then
      if (!t.isEmpty) && t.all isDig then some ((parseNat t : Int)) else none
    else
      if (c :: t).all isDig then some ((parseNat (c :: t) : Int)) else none

/-! ## The session-summary scanner

`get_interfaces_and_sessions` runs
`re.findall(r'(\S+\d/\d/\d)\s+(\d+)', text)`.  For this pattern the regex
semantics collapse to the following exact character-level scanner: at a
given start position the group `\S+\d/\d/\d` must end exactly at the end of
the maximal non-space run starting there (any shorter end is followed by a
non-space character, so `\s+` could not match), hence a match at a position
exists iff the non-space run there has length at least 6, its last five
characters form `\d/\d/\d`, and it is followed by at least one whitespace
character and then at least one digit.  `re.findall` takes non-overlapping
matches left to right, advancing one character after a failed position. -/

/-- Does a five-character list match `\d/\d/\d`? -/
def isDDD : Str → Bool
  | [c1, c2, c3, c4, c5] =>
    isDig c1 && decide (c2 = '/') && isDig c3 && decide (c4 = '/') && isDig c5
  | _ => false

/-- One attempt of `(\S+\d/\d/\d)\s+(\d+)` anchored at the start of `s`:
returns the two captured groups and the remaining input. -/
def matchAt (s : Str) : Option ((Str × Str) × Str) :=
  let run := s.takeWhile notSp
  if 6 ≤ run.length && isDDD (run.drop (run.length - 5)) then
    let r1 := s.dropWhile notSp
    let ws := r1.takeWhile isSp
    if !ws.isEmpty then
      let r2 := r1.dropWhile isSp
      let ds := r2.takeWhile isDig
      if !ds.isEmpty then some ((run, ds), r2.dropWhile isDig) else none
    else none
  else none

/-- Fuel-driven `findall` loop; fuel `s.length` always suffices because each
step consumes at least one character. -/
def findallFuel : Nat → Str → List (Str × Str)
  | 0, _ => []
  | _ + 1, [] => []
  | f + 1, c :: t =>
    match matchAt (c :: t) with
    | some (g, rest) => g :: findallFuel f rest
    | none => findallFuel f t

/-- Model of `get_interfaces_and_sessions` (src/main.py lines 36-43) applied
to the raw output of `show pppoe summary`. -/
def get_interfaces_and_sessions (raw : Str) : List (Str × Str) :=
  findallFuel raw.length raw

/-! ## The interface-number search

`get_interface_number` runs `re.search(r'\S+(\d/\d/\d)', name).group(1)`.
`re.search` matches at the leftmost feasible start; there `\S+` is greedy,
so the captured window is the rightmost `\d/\d/\d` window reachable from
that start through non-space characters.  Because every `\d/\d/\d` window
consists of non-space characters, a window is reachable iff the character
immediately before it is non-space.  `.group(1)` on a failed search raises
(`none`). -/

/-- Rightmost `\d/\d/\d` window in the non-space run at the head of `l`. -/
def lastWin : Str → Option Str
  | [] => none
  | c :: t =>
    if isSp c then none
    else
      match lastWin t with
      | some w => some w
      | none => if isDDD ((c :: t).take 5) then some ((c :: t).take 5) else none

/-- Model of `get_interface_number` (src/main.py lines 46-55): `none` models
the `AttributeError` raised when the pattern does not occur. -/
def get_interface_number : Str → Option Str
  | [] => none
  | c :: t =>
    if isSp c then get_interface_number t
    else
      match lastWin t with
      | some w => some w
      | none => get_interface_number t

/-- Decidable witness predicate: the name contains a `\d/\d/\d` window
immediately preceded by a non-space character (exactly when
`re.search(r'\S+(\d/\d/\d)', ...)` succeeds). -/
def containsNum : Str → Bool
  | [] => false
  | c :: t => (notSp c && isDDD (t.take 5)) || containsNum t

/-- Model of `get_bba_group_names` (src/main.py lines 58-67). -/
def get_bba_group_names (interface_name : Str) : Option (Str × Str) :=
  (get_interface_number interface_name).map fun num =>
    ("PPPOE_".toList ++ num, "PPPOE_NAT_".toList ++ num)

/-! ## The threshold classifier -/

/-- Model of `get_pado_delay` (src/main.py lines 70-88). -/
def get_pado_delay (sessions_number threshold_256 threshold_512 threshold_9999 : Int) : Int :=
  if sessions_number < threshold_256 then 0
  else if threshold_256 ≤ sessions_number ∧ sessions_number < threshold_512 then 256
  else if threshold_512 ≤ sessions_number ∧ sessions_number < threshold_9999 then 512
  else 9999

/-- Delay of the last ladder entry whose boundary is at most `s`, scanning
boundaries in increasing order, with `d` the delay accumulated so far. -/
def lastLE (s : Int) (d : Int) : List (Int × Int) → Int
  | [] => d
  | (b, dl) :: rest => if b ≤ s then lastLE s dl rest else lastLE s d rest

/-- Modelled from the spec: `classifyDelay(sessionCount, ladder)` returns 0
if `sessionCount` is below the first boundary and otherwise the delay of
the last ladder entry whose boundary is ≤ `sessionCount` (half-open tiers,
final tier unbounded above). -/
def classifyDelaySpec (s : Int) : List (Int × Int) → Int
  | [] => 0
  | (b, dl) :: rest => if s < b then 0 else lastLE s dl rest

/-! ## Association maps with Python `dict` semantics -/

/-- `dict` model: insertion-ordered association list. -/
abbrev Dict := List (Str × Int)

/-- `g in d` / `d[g]` read access. -/
def lookup : Dict → Str → Option Int
  | [], _ => none
  | (k, v) :: r, g => if k = g then some v else lookup r g

/-- `d[g] = v`: update in place if the key exists, else append. -/
def update : Dict → Str → Int → Dict
  | [], g, d => [(g, d)]
  | (k, v) :: r, g, d => if k = g then (k, d) :: r else (k, v) :: update r g d

/-! ## The running-config parser

`get_pado_delay_current_dict` (src/main.py lines 91-107) splits the raw
`sh run | sec bba` output on newlines and folds over the lines with a
mutable group-name cursor.  `none` models any of the exceptions the Python
loop can raise (`AttributeError` from a failed `re.search(...).group(1)`,
`ValueError` from `int(...)`, `NameError`/`UnboundLocalError` from an
unbound cursor). -/

/-- Model of `re.search(pat + r' (\S+)', line).group(1)` for a literal
pattern `pat` ending in a space: the token after the leftmost occurrence of
`pat` that is followed by at least one non-space character. -/
def findTok (pat : Str) : Str → Option Str
  | [] => none
  | c :: t =>
    if pat.isPrefixOf (c :: t) then
      let tok := ((c :: t).drop pat.length).takeWhile notSp
      if !tok.isEmpty then some tok else findTok pat t
    else findTok pat t

/-- `text.split(sep='\n')`. -/
def splitNl : Str → List Str
  | [] => [[]]
  | c :: t =>
    if c = '\n' then [] :: splitNl t
    else
      match splitNl t with
      | h :: r => (c :: h) :: r
      | [] => [[c]]

/-- `'\n'.join(lines)` (inverse of `splitNl` on newline-free lines). -/
def joinNl : List Str → Str
  | [] => []
  | [l] => l
  | l :: l2 :: ls => l ++ '\n' :: joinNl (l2 :: ls)

/-- One iteration of the line loop of `get_pado_delay_current_dict`:
returns the new cursor and dictionary, or `none` if the iteration raises
(`AttributeError` from `.group(1)`, `ValueError` from `int`, or an unbound
cursor). -/
def parseLine (l : Str) (cursor : Option Str) (m : Dict) : Option (Option Str × Dict) :=
  if ("bba-group pppoe".toList).isPrefixOf l then
    match findTok "bba-group pppoe ".toList l with
    | none => none
    | some g => some (some g, update m g 0)
  else if (" pado delay".toList).isPrefixOf l then
    match findTok "pado delay ".toList l with
    | none => none
    | some tok =>
      match pyInt? tok with
      | none => none
      | some d =>
        match cursor with
        | none => none
        | some g => some (cursor, update m g d)
  else some (cursor, m)

/-- The line loop of `get_pado_delay_current_dict`, with the group-name
cursor made explicit. -/
def parseLines : List Str → Option Str → Dict → Option Dict
  | [], _, m => some m
  | l :: rest, cursor, m =>
    (parseLine l cursor m).bind fun cm => parseLines rest cm.1 cm.2

/-- Model of `get_pado_delay_current_dict` (src/main.py lines 91-107)
applied to the raw text of `sh run | sec bba`. -/
def get_pado_delay_current_dict (raw : Str) : Option Dict :=
  parseLines (splitNl raw) none []

/-! ## The delay diff engine -/

/-- Model of `is_pado_change_needed` (src/main.py lines 110-121). -/
def is_pado_change_needed (bba_group_name : Str) (pado_delay : Int)
    (pado_delay_current_dict : Dict) : Bool :=
  match lookup pado_delay_current_dict bba_group_name with
  | some v => decide (pado_delay ≠ v)
  | none => false

/-- The command `f'bba-group pppoe {bba_group_name}'`. -/
def selCmd (g : Str) : Str := "bba-group pppoe ".toList ++ g

/-- The command `f'pado delay {pado_delay}'`. -/
def delCmd (d : Int) : Str := "pado delay ".toList ++ intStr d

/-- Model of `create_pado_config_set` (src/main.py lines 124-140).  The
current-state dictionary, fetched over SSH in the source, is passed in as
`cur`; `none` models the exception propagating out of
`get_bba_group_names` on an interface name without a `\d/\d/\d` pattern. -/
def create_pado_config_set : List (Str × Int) → Dict → Option (List Str)
  | [], _ => some []
  | (interface_name, pado_delay) :: rest, cur =>
    match get_bba_group_names interface_name with
    | none => none
    | some (p, n) =>
      match create_pado_config_set rest cur with
      | none => none
      | some b =>
        some ((if is_pado_change_needed p pado_delay cur then
                 [selCmd p, delCmd pado_delay] else []) ++
              (if is_pado_change_needed n pado_delay cur then
                 [selCmd n, delCmd pado_delay] else []) ++ b)

/-- The commands the spec emits for one group. -/
def specPairCmds (cur : Dict) (d : Int) (g : Str) : List Str :=
  if (cur.map Prod.fst).contains g ∧ ¬(lookup cur g = some d) then
    [selCmd g, delCmd d]
  else []

/-- Modelled from the spec (§4.4 `computeChanges`): for each desired pair in
input order derive the two group names; for each group name, if it is
present in `currentMap` and its current delay differs from the desired
delay, append a (select-group, set-delay) command pair, primary group
first, then NAT group. -/
def computeChangesSpec : List (Str × Int) → Dict → Option (List Str)
  | [], _ => some []
  | (i, d) :: rest, cur =>
    match get_bba_group_names i, computeChangesSpec rest cur with
    | some gs, some b => some (specPairCmds cur d gs.1 ++ specPairCmds cur d gs.2 ++ b)
    | _, _ => none

/-! ## The orchestrator boundary (modelled from the spec)

The device-side effect of a committed batch is not part of src/main.py; the
spec (§8) describes it as folding each `applyCommands` result back into
`currentMap`.  `foldBatch` is modelled from the spec: it walks the command
batch with a selected-group cursor, each set-delay command updating its
selected group's entry. -/

/-- Effect of one set-delay command on the map, given the cursor and the
parsed delay value (no effect when either is undefined). -/
def foldStep (m : Dict) (cursor : Option Str) (d? : Option Int) : Dict :=
  match cursor, d? with
  | some g, some d => update m g d
  | _, _ => m

/-- Modelled from the spec: fold a committed command batch back into a
current-delay map. -/
def foldBatch : Dict → List Str → Option Str → Dict
  | m, [], _ => m
  | m, c :: rest, cursor =>
    if ("bba-group pppoe ".toList).isPrefixOf c then
      foldBatch m rest (some (c.drop ("bba-group pppoe ".toList).length))
    else if ("pado delay ".toList).isPrefixOf c then
      foldBatch (foldStep m cursor (pyInt? (c.drop ("pado delay ".toList).length))) rest cursor
    else foldBatch m rest cursor

/-- The committed form of a batch as it appears in running config: each
set-delay line indented by one space. -/
def indentCommit (batch : List Str) : List Str :=
  batch.map fun c => if ("pado delay ".toList).isPrefixOf c then ' ' :: c else c

/-! ## Auxiliary views of the diff engine used by the proofs -/

/-- The (group, delay) change list behind a batch. -/
def chunkFor (cur : Dict) (d : Int) (g : Str) : List (Str × Int) :=
  if is_pado_change_needed g d cur then [(g, d)] else []

/-- The change pairs computed by the diff engine, before rendering. -/
def changes : List (Str × Int) → Dict → Option (List (Str × Int))
  | [], _ => some []
  | (i, d) :: rest, cur =>
    match get_bba_group_names i, changes rest cur with
    | some (p, n), some ch => some (chunkFor cur d p ++ chunkFor cur d n ++ ch)
    | _, _ => none

/-- Render a change list as a command batch. -/
def renderChunks : List (Str × Int) → List Str
  | [] => []
  | (g, d) :: r => selCmd g :: delCmd d :: renderChunks r

/-- Apply a change list to a map, in order. -/
def applyChanges (m : Dict) : List (Str × Int) → Dict
  | [] => m
  | (g, d) :: r => applyChanges (update m g d) r

/-! ## Well-formedness scans for the running-config parser -/

/-- A delay-setting line appears before any group-declaration line. -/
def delayBeforeGroup : List Str → Bool
  | [] => false
  | l :: rest =>
    if ("bba-group pppoe".toList).isPrefixOf l then false
    else if (" pado delay".toList).isPrefixOf l then true
    else delayBeforeGroup rest

/-- Every group line carries a name token, every delay line follows a group
line and carries a numeric token (`seen` = a group line was already met). -/
def linesOk : List Str → Bool → Bool
  | [], _ => true
  | l :: rest, seen =>
    if ("bba-group pppoe".toList).isPrefixOf l then
      match findTok "bba-group pppoe ".toList l with
      | some _ => linesOk rest true
      | none => false
    else if (" pado delay".toList).isPrefixOf l then
      match findTok "pado delay ".toList l with
      | some tok => seen && (pyInt? tok).isSome && linesOk rest seen
      | none => false
    else linesOk rest seen

/-! ## Basic list and character lemmas -/

theorem isPrefixOf_append_self (p g : Str) : p.isPrefixOf (p ++ g) = true := by
  induction p with
  | nil => simp [List.isPrefixOf]
  | cons c t ih => simp [List.isPrefixOf, ih]

theorem isPrefixOf_append_of (p q g : Str) (h : p.isPrefixOf q = true) :
    p.isPrefixOf (q ++ g) = true := by
  induction p generalizing q with
  | nil => simp [List.isPrefixOf]
  | cons a t ih =>
    cases q with
    | nil => simp [List.isPrefixOf] at h
    | cons b r =>
      simp only [List.isPrefixOf, List.cons_append, Bool.and_eq_true, beq_iff_eq] at h ⊢
      exact ⟨h.1, ih r h.2⟩

theorem isPrefixOf_cons_ne (a c : Char) (p s : Str) (h : ¬a = c) :
    (a :: p).isPrefixOf (c :: s) = false := by
  simp [List.isPrefixOf, h]

theorem isPrefixOf_cons_same (a : Char) (p s : Str) :
    (a :: p).isPrefixOf (a :: s) = p.isPrefixOf s := by
  simp [List.isPrefixOf]

theorem takeWhile_eq_self (p : Char → Bool) (l : Str) (h : ∀ c ∈ l, p c = true) :
    l.takeWhile p = l := by
  induction l with
  | nil => rfl
  | cons c t ih =>
    have ht : t.takeWhile p = t := ih fun c hc => h c (by simp [hc])
    simp [List.takeWhile, h c (by simp), ht]

theorem dig_notSp (c : Char) (h : isDig c = true) : notSp c = true := by
  simp [isDig] at h
  simp [notSp, isSp]
  omega

theorem dig_ne_nl (c : Char) (h : isDig c = true) : ¬c = '\n' := by
  simp [isDig] at h
  intro hc
  subst hc
  simp at h

theorem isDDD_shape (w : Str) (h : isDDD w = true) :
    ∃ c1 c3 c5, w = [c1, '/', c3, '/', c5] ∧
      isDig c1 = true ∧ isDig c3 = true ∧ isDig c5 = true := by
  match w, h with
  | [c1, c2, c3, c4, c5], h =>
    simp only [isDDD, Bool.and_eq_true, decide_eq_true_eq] at h
    exact ⟨c1, c3, c5, by simp [h.1.1.1.2, h.1.2], h.1.1.1.1, h.1.1.2, h.2⟩

theorem isDDD_length (w : Str) (h : isDDD w = true) : w.length = 5 := by
  obtain ⟨c1, c3, c5, hw, -⟩ := isDDD_shape w h
  simp [hw]

theorem isDDD_notSp (w : Str) (h : isDDD w = true) : ∀ c ∈ w, notSp c = true := by
  obtain ⟨c1, c3, c5, hw, h1, h3, h5⟩ := isDDD_shape w h
  subst hw
  intro c hc
  simp at hc
  rcases hc with rfl | rfl | rfl | rfl | rfl
  · exact dig_notSp _ h1
  · decide
  · exact dig_notSp _ h3
  · decide
  · exact dig_notSp _ h5

theorem isDDD_ne_nl (w : Str) (h : isDDD w = true) : ∀ c ∈ w, ¬c = '\n' := by
  obtain ⟨c1, c3, c5, hw, h1, h3, h5⟩ := isDDD_shape w h
  subst hw
  intro c hc
  simp at hc
  rcases hc with rfl | rfl | rfl | rfl | rfl
  · exact dig_ne_nl _ h1
  · decide
  · exact dig_ne_nl _ h3
  · decide
  · exact dig_ne_nl _ h5

/-! ## Decimal round-trip lemmas -/

theorem digitVal_digitChar (r : Nat) (h : r < 10) : digitVal (digitChar r) = r := by
  interval_cases r <;> decide

theorem isDig_digitChar (r : Nat) (h : r < 10) : isDig (digitChar r) = true := by
  interval_cases r <;> decide

theorem toDigitsRevFuel_all_dig (f n : Nat) : ∀ c ∈ toDigitsRevFuel f n, isDig c = true := by
  induction f generalizing n with
  | zero => intro c hc; simp [toDigitsRevFuel] at hc
  | succ f ih =>
    cases n with
    | zero => intro c hc; simp [toDigitsRevFuel] at hc
    | succ m =>
      intro c hc
      simp only [toDigitsRevFuel, List.mem_cons] at hc
      rcases hc with rfl | hc
      · exact isDig_digitChar _ (Nat.mod_lt _ (by omega))
      · exact ih _ c hc

theorem valRev_toDigitsRevFuel (f : Nat) : ∀ n, n ≤ f → valRev (toDigitsRevFuel f n) = n := by
  induction f with
  | zero => intro n hn; interval_cases n; rfl
  | succ f ih =>
    intro n hn
    cases n with
    | zero => rfl
    | succ m =>
      have hdiv : (m + 1) / 10 ≤ f := by
        have := Nat.div_lt_self (show 0 < m + 1 by omega) (show 1 < 10 by omega)
        omega
      simp only [toDigitsRevFuel, valRev]
      rw [digitVal_digitChar _ (Nat.mod_lt _ (by omega)), ih _ hdiv]
      omega

theorem natStr_all_dig (n : Nat) : ∀ c ∈ natStr n, isDig c = true := by
  unfold natStr
  split
  · intro c hc; simp at hc; subst hc; decide
  · intro c hc
    rw [List.mem_reverse] at hc
    exact toDigitsRevFuel_all_dig n n c hc

theorem natStr_ne_nil (n : Nat) : ¬natStr n = [] := by
  unfold natStr
  split
  · simp
  · intro h
    rw [List.reverse_eq_nil_iff] at h
    rename_i hn
    cases n with
    | zero => exact hn rfl
    | succ m => simp [toDigitsRevFuel] at h

theorem parseNat_natStr (n : Nat) : parseNat (natStr n) = n := by
  unfold natStr
  split
  · rename_i h; subst h; rfl
  · unfold parseNat
    rw [List.reverse_reverse]
    exact valRev_toDigitsRevFuel n n le_rfl

theorem dig_ne_minus (c : Char) (h : isDig c = true) : ¬c = '-' := by
  intro hc
  subst hc
  revert h
  decide

theorem dig_ne_plus (c : Char) (h : isDig c = true) : ¬c = '+' := by
  intro hc
  subst hc
  revert h
  decide

theorem pyInt_natStr (n : Nat) : pyInt? (natStr n) = some (n : Int) := by
  obtain ⟨c, t, hct⟩ : ∃ c t, natStr n = c :: t := by
    cases h : natStr n with
    | nil => exact absurd h (natStr_ne_nil n)
    | cons c t => exact ⟨c, t, rfl⟩
  have hall : (c :: t).all isDig = true := by
    rw [List.all_eq_true]
    intro x hx
    exact natStr_all_dig n x (hct ▸ hx)
  have hc : isDig c = true := natStr_all_dig n c (by rw [hct]; simp)
  rw [hct]
  simp only [pyInt?, if_neg (dig_ne_minus c hc), if_neg (dig_ne_plus c hc), if_pos hall]
  rw [← hct, parseNat_natStr]

theorem pyInt_intStr (d : Int) : pyInt? (intStr d) = some d := by
  by_cases hd : d < 0
  · simp only [intStr, if_pos hd]
    obtain ⟨c, t, hct⟩ : ∃ c t, natStr (-d).toNat = c :: t := by
      cases h : natStr (-d).toNat with
      | nil => exact absurd h (natStr_ne_nil (-d).toNat)
      | cons c t => exact ⟨c, t, rfl⟩
    have hall : (c :: t).all isDig = true := by
      rw [List.all_eq_true]
      intro x hx
      exact natStr_all_dig (-d).toNat x (hct ▸ hx)
    rw [hct]
    simp only [pyInt?, if_pos rfl, List.isEmpty_cons, Bool.not_false, Bool.true_and, hall,
      if_pos rfl]
    rw [← hct, parseNat_natStr, Int.toNat_of_nonneg (show (0 : Int) ≤ -d by omega)]
    simp
  · simp only [intStr, if_neg hd]
    rw [pyInt_natStr, Int.toNat_of_nonneg (show (0 : Int) ≤ d by omega)]

/-- Digits never start a select command nor contain a newline. -/
theorem intStr_notSp (d : Int) : ∀ c ∈ intStr d, notSp c = true := by
  intro c hc
  unfold intStr at hc
  split at hc
  · simp at hc
    rcases hc with rfl | hc
    · decide
    · have := natStr_all_dig (-d).toNat c hc
      exact dig_notSp c this
  · exact dig_notSp c (natStr_all_dig d.toNat c hc)

theorem intStr_ne_nl (d : Int) : ∀ c ∈ intStr d, ¬c = '\n' := by
  intro c hc
  unfold intStr at hc
  split at hc
  · simp at hc
    rcases hc with rfl | hc
    · decide
    · exact dig_ne_nl c (natStr_all_dig (-d).toNat c hc)
  · exact dig_ne_nl c (natStr_all_dig d.toNat c hc)

theorem intStr_ne_nil (d : Int) : ¬intStr d = [] := by
  unfold intStr
  split
  · simp
  · exact natStr_ne_nil d.toNat

/-! ## Lemmas about the interface-number search -/

theorem lastWin_isSome_imp (t : Str) (h : (lastWin t).isSome = true) :
    isDDD (t.take 5) = true ∨ containsNum t = true := by
  induction t with
  | nil => simp [lastWin] at h
  | cons c t ih =>
    by_cases hsp : isSp c = true
    · simp [lastWin, hsp] at h
    · rw [lastWin, if_neg hsp] at h
      cases hl : lastWin t with
      | some w =>
        rcases ih (by rw [hl]; rfl) with hw | hcn
        · right
          rw [containsNum]
          simp [notSp, hsp, hw]
        · right
          rw [containsNum]
          simp [hcn]
      | none =>
        rw [hl] at h
        by_cases hd : isDDD ((c :: t).take 5) = true
        · left; exact hd
        · rw [if_neg hd] at h
          simp at h

theorem lastWin_isSome_of_take5 (t : Str) (h : isDDD (t.take 5) = true) :
    (lastWin t).isSome = true := by
  cases t with
  | nil => exact absurd h (by decide)
  | cons c t =>
    have e5 : (c :: t).take 5 = c :: t.take 4 := rfl
    have hc : isDig c = true := by
      rw [e5] at h
      obtain ⟨c1, c3, c5, hw, h1, -, -⟩ := isDDD_shape _ h
      have hc1 : c = c1 := by
        have := congrArg List.head? hw
        simpa using this
      rw [hc1]; exact h1
    have hsp : ¬isSp c = true := by
      have := dig_notSp c hc
      simp [notSp] at this
      simp [this]
    rw [lastWin, if_neg hsp]
    cases hl : lastWin t with
    | some w => rfl
    | none => rw [if_pos h]; rfl

theorem lastWin_some_val (t : Str) (w : Str) (h : lastWin t = some w) :
    isDDD w = true ∧ ∃ a b, t = a ++ w ++ b := by
  induction t with
  | nil => simp [lastWin] at h
  | cons c t ih =>
    by_cases hsp : isSp c = true
    · simp [lastWin, hsp] at h
    · rw [lastWin, if_neg hsp] at h
      cases hl : lastWin t with
      | some w' =>
        rw [hl] at h
        have h2 : some w' = some w := h
        obtain rfl : w' = w := by cases h2; rfl
        obtain ⟨hd, a, b, hab⟩ := ih hl
        exact ⟨hd, c :: a, b, by simp [hab]⟩
      | none =>
        rw [hl] at h
        by_cases hdd : isDDD ((c :: t).take 5) = true
        · rw [if_pos hdd] at h
          have h2 : some ((c :: t).take 5) = some w := h
          obtain rfl : (c :: t).take 5 = w := by cases h2; rfl
          refine ⟨hdd, [], (c :: t).drop 5, ?_⟩
          simp
        · rw [if_neg hdd] at h
          cases h

theorem get_interface_number_isSome (s : Str) :
    (get_interface_number s).isSome = containsNum s := by
  induction s with
  | nil => rfl
  | cons c t ih =>
    by_cases hsp : isSp c = true
    · have hns : notSp c = false := by simp [notSp, hsp]
      rw [get_interface_number, if_pos hsp, containsNum, hns]
      simp [ih]
    · rw [get_interface_number, if_neg hsp, containsNum]
      have hns : notSp c = true := by simp [notSp, hsp]
      cases hl : lastWin t with
      | some w =>
        have := lastWin_isSome_imp t (by rw [hl]; rfl)
        rcases this with hw | hcn
        · simp [hns, hw]
        · simp [hcn]
      | none =>
        have hnd : isDDD (t.take 5) = false := by
          by_cases hd : isDDD (t.take 5) = true
          · have := lastWin_isSome_of_take5 t hd
            rw [hl] at this
            cases this
          · simp at hd; exact hd
        simp [hns, hnd, ih]

theorem get_interface_number_some_val (s : Str) (w : Str)
    (h : get_interface_number s = some w) :
    isDDD w = true ∧ ∃ a b, s = a ++ w ++ b := by
  induction s with
  | nil => simp [get_interface_number] at h
  | cons c t ih =>
    by_cases hsp : isSp c = true
    · rw [get_interface_number, if_pos hsp] at h
      obtain ⟨hd, a, b, hab⟩ := ih h
      exact ⟨hd, c :: a, b, by simp [hab]⟩
    · rw [get_interface_number, if_neg hsp] at h
      cases hl : lastWin t with
      | some u =>
        rw [hl] at h
        have h2 : some u = some w := h
        obtain rfl : u = w := by cases h2; rfl
        obtain ⟨hd, a, b, hab⟩ := lastWin_some_val t _ hl
        exact ⟨hd, c :: a, b, by simp [hab]⟩
      | none =>
        rw [hl] at h
        obtain ⟨hd, a, b, hab⟩ := ih h
        exact ⟨hd, c :: a, b, by simp [hab]⟩

/-! ## Dictionary lemmas -/

theorem lookup_update (m : Dict) (g : Str) (d : Int) (g' : Str) :
    lookup (update m g d) g' = if g = g' then some d else lookup m g' := by
  induction m with
  | nil =>
    by_cases h : g = g'
    · simp [update, lookup, h]
    · simp [update, lookup, h]
  | cons kv r ih =>
    obtain ⟨k, v⟩ := kv
    by_cases hk : k = g
    · subst hk
      by_cases h : k = g'
      · simp [update, lookup, h]
      · simp [update, lookup, h]
    · by_cases h : k = g'
      · subst h
        have hg : ¬g = k := fun hh => hk hh.symm
        simp [update, lookup, hk, hg]
      · simp [update, lookup, hk, h, ih]

theorem update_update (m : Dict) (g : Str) (a b : Int) :
    update (update m g a) g b = update m g b := by
  induction m with
  | nil => simp [update]
  | cons kv r ih =>
    obtain ⟨k, v⟩ := kv
    by_cases hk : k = g
    · simp [update, hk]
    · simp [update, hk, ih]

theorem contains_iff_lookup_isSome (m : Dict) (g : Str) :
    (m.map Prod.fst).contains g = (lookup m g).isSome := by
  induction m with
  | nil => simp [lookup]
  | cons kv r ih =>
    obtain ⟨k, v⟩ := kv
    by_cases hk : k = g
    · subst hk
      simp [lookup]
    · have hgk : (g == k) = false := by
        simp
        exact fun hh => hk hh.symm
      simp only [List.map_cons, List.contains_cons, hgk, Bool.false_or, lookup, if_neg hk]
      exact ih

/-! ## Command-pattern lemmas -/

theorem selPatHead : "bba-group pppoe ".toList = 'b' :: "ba-group pppoe ".toList := rfl

theorem selChkHead : "bba-group pppoe".toList = 'b' :: "ba-group pppoe".toList := rfl

theorem delPatHead : "pado delay ".toList = 'p' :: "ado delay ".toList := rfl

theorem delChkHead : " pado delay".toList = ' ' :: "pado delay".toList := rfl

theorem selGuard_on_del (d : Int) :
    ("bba-group pppoe ".toList).isPrefixOf (delCmd d) = false := by
  rw [delCmd, delPatHead, List.cons_append, selPatHead]
  exact isPrefixOf_cons_ne _ _ _ _ (by decide)

theorem selChk_on_del_indent (d : Int) :
    ("bba-group pppoe".toList).isPrefixOf (' ' :: delCmd d) = false := by
  rw [selChkHead]
  exact isPrefixOf_cons_ne _ _ _ _ (by decide)

theorem delGuard_on_sel (g : Str) :
    ("pado delay ".toList).isPrefixOf (selCmd g) = false := by
  rw [selCmd, selPatHead, List.cons_append, delPatHead]
  exact isPrefixOf_cons_ne _ _ _ _ (by decide)

theorem selChk_on_sel (g : Str) :
    ("bba-group pppoe".toList).isPrefixOf (selCmd g) = true := by
  rw [selCmd]
  exact isPrefixOf_append_of _ _ _ (by decide)

theorem delChk_on_del_indent (d : Int) :
    (" pado delay".toList).isPrefixOf (' ' :: delCmd d) = true := by
  rw [delChkHead, isPrefixOf_cons_same, delCmd]
  exact isPrefixOf_append_of _ _ _ (by decide)

/-! ## `findTok` lemmas -/

theorem findTok_self (pat g : Str) (hpat : ¬pat = []) (hg : ¬g = [])
    (hw : ∀ c ∈ g, notSp c = true) : findTok pat (pat ++ g) = some g := by
  cases pat with
  | nil => exact absurd rfl hpat
  | cons a pr =>
    have h1 : (a :: pr).isPrefixOf (a :: (pr ++ g)) = true := by
      rw [← List.cons_append]
      exact isPrefixOf_append_self _ _
    have h2 : (a :: (pr ++ g)).drop (a :: pr).length = g := by
      rw [← List.cons_append]
      exact List.drop_left _ _
    rw [List.cons_append, findTok, if_pos h1, h2, takeWhile_eq_self _ _ hw]
    cases g with
    | nil => exact absurd rfl hg
    | cons x xs => rfl

theorem findTok_del_indent (ds : Str) (hg : ¬ds = []) (hw : ∀ c ∈ ds, notSp c = true) :
    findTok "pado delay ".toList (' ' :: ("pado delay ".toList ++ ds)) = some ds := by
  rw [findTok]
  rw [if_neg (by rw [delPatHead]; simp [isPrefixOf_cons_ne _ _ _ _ (by decide : ¬ 'p' = ' ')])]
  exact findTok_self _ ds (by decide) hg hw

/-! ## Rendering lemmas -/

theorem renderChunks_append (a b : List (Str × Int)) :
    renderChunks (a ++ b) = renderChunks a ++ renderChunks b := by
  induction a with
  | nil => rfl
  | cons p r ih =>
    obtain ⟨g, d⟩ := p
    simp [renderChunks, ih]

theorem renderChunks_chunkFor (cur : Dict) (d : Int) (g : Str) :
    renderChunks (chunkFor cur d g) =
      (if is_pado_change_needed g d cur then [selCmd g, delCmd d] else []) := by
  unfold chunkFor
  split <;> rfl

theorem create_eq_changes (pairs : List (Str × Int)) (cur : Dict) :
    create_pado_config_set pairs cur = (changes pairs cur).map renderChunks := by
  induction pairs with
  | nil => rfl
  | cons pd rest ih =>
    obtain ⟨i, d⟩ := pd
    rw [create_pado_config_set, changes]
    cases hb : get_bba_group_names i with
    | none => rfl
    | some pn =>
      obtain ⟨p, n⟩ := pn
      rw [ih]
      cases hc : changes rest cur with
      | none => rfl
      | some ch =>
        simp only [Option.map_some']
        rw [renderChunks_append, renderChunks_append, renderChunks_chunkFor,
          renderChunks_chunkFor]

/-! ## Folding a rendered batch -/

theorem foldBatch_chunk (m : Dict) (g : Str) (d : Int) (rest : List Str)
    (cursor : Option Str) :
    foldBatch m (selCmd g :: delCmd d :: rest) cursor =
      foldBatch (update m g d) rest (some g) := by
  rw [foldBatch, if_pos (by rw [selCmd]; exact isPrefixOf_append_self _ _)]
  rw [show (selCmd g).drop ("bba-group pppoe ".toList).length = g from by
    rw [selCmd]; exact List.drop_left _ _]
  rw [foldBatch, if_neg (by rw [selGuard_on_del]; exact Bool.false_ne_true)]
  rw [if_pos (by rw [delCmd]; exact isPrefixOf_append_self _ _)]
  rw [show (delCmd d).drop ("pado delay ".toList).length = intStr d from by
    rw [delCmd]; exact List.drop_left _ _]
  rw [pyInt_intStr]
  rfl

theorem foldBatch_render (ch : List (Str × Int)) (m : Dict) (cursor : Option Str) :
    foldBatch m (renderChunks ch) cursor = applyChanges m ch := by
  induction ch generalizing m cursor with
  | nil => rfl
  | cons p r ih =>
    obtain ⟨g, d⟩ := p
    rw [renderChunks, foldBatch_chunk, applyChanges]
    exact ih (update m g d) (some g)

/-! ## Parsing a committed rendered batch -/

theorem indentCommit_cons (c : Str) (rest : List Str) :
    indentCommit (c :: rest) =
      (if ("pado delay ".toList).isPrefixOf c then ' ' :: c else c) :: indentCommit rest := rfl

theorem parseLine_sel (g : Str) (cursor : Option Str) (m : Dict) (hg : ¬g = [])
    (hw : ∀ c ∈ g, notSp c = true) :
    parseLine (selCmd g) cursor m = some (some g, update m g 0) := by
  rw [parseLine, if_pos (selChk_on_sel g)]
  rw [show findTok "bba-group pppoe ".toList (selCmd g) = some g from by
    rw [selCmd]; exact findTok_self _ g (by decide) hg hw]

theorem parseLine_del_indent (d : Int) (g : Str) (m : Dict) :
    parseLine (' ' :: delCmd d) (some g) m = some (some g, update m g d) := by
  rw [parseLine, if_neg (by rw [selChk_on_del_indent]; exact Bool.false_ne_true)]
  rw [if_pos (delChk_on_del_indent d)]
  rw [show findTok "pado delay ".toList (' ' :: delCmd d) = some (intStr d) from by
    rw [delCmd]; exact findTok_del_indent (intStr d) (intStr_ne_nil d) (intStr_notSp d)]
  simp [pyInt_intStr]

theorem parseLines_indentRender (ch : List (Str × Int)) (cursor : Option Str) (m : Dict)
    (hwf : ∀ p ∈ ch, ¬p.1 = [] ∧ ∀ c ∈ p.1, notSp c = true) :
    parseLines (indentCommit (renderChunks ch)) cursor m = some (applyChanges m ch) := by
  induction ch generalizing cursor m with
  | nil => rfl
  | cons p r ih =>
    obtain ⟨g, d⟩ := p
    obtain ⟨hg, hw⟩ := hwf (g, d) (by simp)
    rw [renderChunks, indentCommit_cons,
      if_neg (by rw [delGuard_on_sel]; exact Bool.false_ne_true)]
    rw [indentCommit_cons, if_pos (by rw [delCmd]; exact isPrefixOf_append_self _ _)]
    rw [parseLines, parseLine_sel g cursor m hg hw, Option.some_bind]
    rw [parseLines, parseLine_del_indent d g (update m g 0), Option.some_bind]
    show parseLines (indentCommit (renderChunks r)) (some g) (update (update m g 0) g d) =
      some (applyChanges m ((g, d) :: r))
    rw [update_update, applyChanges]
    exact ih (some g) (update m g d) fun q hq => hwf q (by simp [hq])

/-! ## Lemmas about applying a change list -/

theorem applyChanges_not_mem (ch : List (Str × Int)) (m : Dict) (g : Str)
    (h : ∀ d', ¬(g, d') ∈ ch) :
    lookup (applyChanges m ch) g = lookup m g := by
  induction ch generalizing m with
  | nil => rfl
  | cons p r ih =>
    obtain ⟨k, v⟩ := p
    have hk : ¬k = g := by
      intro hk
      subst hk
      exact h v (by simp)
    rw [applyChanges, ih _ fun d' hd' => h d' (by simp [hd'])]
    rw [lookup_update, if_neg hk]

theorem applyChanges_const (ch : List (Str × Int)) (m : Dict) (g : Str) (d : Int)
    (hmem : ∃ d', (g, d') ∈ ch) (huniq : ∀ d', (g, d') ∈ ch → d' = d) :
    lookup (applyChanges m ch) g = some d := by
  induction ch generalizing m with
  | nil => obtain ⟨d', hd'⟩ := hmem; simp at hd'
  | cons p r ih =>
    obtain ⟨k, v⟩ := p
    by_cases hk : k = g
    · obtain rfl : g = k := hk.symm
      have hv : v = d := huniq v (by simp)
      subst hv
      rw [applyChanges]
      by_cases hr : ∃ d', (g, d') ∈ r
      · exact ih _ hr (fun d' hd' => huniq d' (List.mem_cons_of_mem _ hd'))
      · push_neg at hr
        rw [applyChanges_not_mem r _ g hr, lookup_update, if_pos rfl]
    · rw [applyChanges]
      have hmem' : ∃ d', (g, d') ∈ r := by
        obtain ⟨d', hd'⟩ := hmem
        rcases List.mem_cons.mp hd' with he | hr
        · obtain ⟨h1, h2⟩ : g = k ∧ d' = v := by cases he; exact ⟨rfl, rfl⟩
          exact absurd h1.symm hk
        · exact ⟨d', hr⟩
      exact ih _ hmem' (fun d' hd' => huniq d' (List.mem_cons_of_mem _ hd'))

theorem applyChanges_keys_sub (ch : List (Str × Int)) (cur : Dict) (g : Str)
    (hks : ∀ q ∈ ch, (lookup cur q.1).isSome = true)
    (hnone : lookup cur g = none) :
    lookup (applyChanges cur ch) g = none := by
  by_cases hmem : ∃ d', (g, d') ∈ ch
  · obtain ⟨d', hd'⟩ := hmem
    have := hks (g, d') hd'
    rw [hnone] at this
    cases this
  · push_neg at hmem
    rw [applyChanges_not_mem ch cur g hmem, hnone]

/-! ## Origin and completeness of the change list -/

theorem bba_some (i : Str) (p n : Str) (h : get_bba_group_names i = some (p, n)) :
    ∃ num, get_interface_number i = some num ∧
      p = "PPPOE_".toList ++ num ∧ n = "PPPOE_NAT_".toList ++ num := by
  unfold get_bba_group_names at h
  cases hg : get_interface_number i with
  | none => rw [hg] at h; cases h
  | some num =>
    rw [hg] at h
    simp only [Option.map_some'] at h
    have h2 := h
    cases h2
    exact ⟨num, rfl, rfl, rfl⟩

theorem chunkFor_mem (cur : Dict) (d : Int) (g : Str) (q : Str × Int)
    (h : q ∈ chunkFor cur d g) :
    q = (g, d) ∧ is_pado_change_needed g d cur = true := by
  unfold chunkFor at h
  split at h
  · simp at h
    exact ⟨h, by assumption⟩
  · simp at h

theorem changes_origin (pairs : List (Str × Int)) (cur : Dict) (ch : List (Str × Int))
    (hc : changes pairs cur = some ch) :
    ∀ q ∈ ch, ∃ i num, (i, q.2) ∈ pairs ∧ get_interface_number i = some num ∧
      (q.1 = "PPPOE_".toList ++ num ∨ q.1 = "PPPOE_NAT_".toList ++ num) ∧
      is_pado_change_needed q.1 q.2 cur = true := by
  induction pairs generalizing ch with
  | nil =>
    rw [changes] at hc
    cases hc
    intro q hq
    simp at hq
  | cons pd rest ih =>
    obtain ⟨i, d⟩ := pd
    rw [changes] at hc
    cases hb : get_bba_group_names i with
    | none => rw [hb] at hc; cases hc
    | some pn =>
      obtain ⟨p, n⟩ := pn
      rw [hb] at hc
      cases hrest : changes rest cur with
      | none => rw [hrest] at hc; cases hc
      | some ch' =>
        rw [hrest] at hc
        have hch : chunkFor cur d p ++ chunkFor cur d n ++ ch' = ch := by cases hc; rfl
        obtain ⟨num, hnum, hp, hn⟩ := bba_some i p n hb
        intro q hq
        rw [← hch] at hq
        rcases List.mem_append.mp hq with hq1 | hq3
        · rcases List.mem_append.mp hq1 with hq1 | hq2
          · obtain ⟨rfl, hneed⟩ := chunkFor_mem cur d p q hq1
            exact ⟨i, num, by simp, hnum, Or.inl hp, hneed⟩
          · obtain ⟨rfl, hneed⟩ := chunkFor_mem cur d n q hq2
            exact ⟨i, num, by simp, hnum, Or.inr hn, hneed⟩
        · obtain ⟨i2, num2, hp2, hnum2, hg2, hneed2⟩ := ih ch' hrest q hq3
          exact ⟨i2, num2, by simp [hp2], hnum2, hg2, hneed2⟩

theorem changes_complete (pairs : List (Str × Int)) (cur : Dict) (ch : List (Str × Int))
    (hc : changes pairs cur = some ch) (i : Str) (d : Int) (hp : (i, d) ∈ pairs)
    (p n : Str) (hb : get_bba_group_names i = some (p, n)) :
    (is_pado_change_needed p d cur = true → (p, d) ∈ ch) ∧
    (is_pado_change_needed n d cur = true → (n, d) ∈ ch) := by
  induction pairs generalizing ch with
  | nil => simp at hp
  | cons pd rest ih =>
    obtain ⟨i1, d1⟩ := pd
    rw [changes] at hc
    cases hb1 : get_bba_group_names i1 with
    | none => rw [hb1] at hc; cases hc
    | some pn1 =>
      obtain ⟨p1, n1⟩ := pn1
      rw [hb1] at hc
      cases hrest : changes rest cur with
      | none => rw [hrest] at hc; cases hc
      | some ch' =>
        rw [hrest] at hc
        have hch : chunkFor cur d1 p1 ++ chunkFor cur d1 n1 ++ ch' = ch := by cases hc; rfl
        rcases List.mem_cons.mp hp with he | hr
        · obtain ⟨he1, he2⟩ : i = i1 ∧ d = d1 := by cases he; exact ⟨rfl, rfl⟩
          subst he1
          subst he2
          rw [hb1] at hb
          have h2 : (p1, n1) = (p, n) := Option.some.inj hb
          have hpp : p1 = p := congrArg Prod.fst h2
          have hnn : n1 = n := congrArg Prod.snd h2
          rw [hpp, hnn] at hch
          constructor
          · intro hneed
            rw [← hch]
            have hin : (p, d) ∈ chunkFor cur d p := by
              unfold chunkFor; rw [if_pos hneed]; simp
            simp [hin]
          · intro hneed
            rw [← hch]
            have hin : (n, d) ∈ chunkFor cur d n := by
              unfold chunkFor; rw [if_pos hneed]; simp
            simp [hin]
        · have := ih ch' hrest hr
          constructor
          · intro hneed
            rw [← hch]
            simp [this.1 hneed]
          · intro hneed
            rw [← hch]
            simp [this.2 hneed]

theorem changes_keys (pairs : List (Str × Int)) (cur : Dict) (ch : List (Str × Int))
    (hc : changes pairs cur = some ch) :
    ∀ q ∈ ch, (lookup cur q.1).isSome = true := by
  intro q hq
  obtain ⟨i, num, hp, hnum, hg, hneed⟩ := changes_origin pairs cur ch hc q hq
  unfold is_pado_change_needed at hneed
  cases hl : lookup cur q.1 with
  | none => rw [hl] at hneed; cases hneed
  | some v => rfl

theorem changes_nil_of (pairs2 : List (Str × Int)) (cur' : Dict)
    (hn : ∀ i d, (i, d) ∈ pairs2 → ∃ p n, get_bba_group_names i = some (p, n) ∧
      is_pado_change_needed p d cur' = false ∧ is_pado_change_needed n d cur' = false) :
    changes pairs2 cur' = some [] := by
  induction pairs2 with
  | nil => rfl
  | cons pd rest ih =>
    obtain ⟨i, d⟩ := pd
    obtain ⟨p, n, hb, hfp, hfn⟩ := hn i d (by simp)
    rw [changes, hb, ih fun i2 d2 h2 => hn i2 d2 (by simp [h2])]
    show some (chunkFor cur' d p ++ chunkFor cur' d n ++ []) = some []
    unfold chunkFor
    rw [if_neg (by rw [hfp]; exact Bool.false_ne_true),
      if_neg (by rw [hfn]; exact Bool.false_ne_true)]
    rfl

/-! ## Group-name disjointness and well-formedness -/

theorem group_ne_cross (num1 num2 : Str) (h1 : isDDD num1 = true) (h2 : isDDD num2 = true) :
    ¬("PPPOE_".toList ++ num1) = ("PPPOE_NAT_".toList ++ num2) := by
  intro h
  have hlen := congrArg List.length h
  rw [List.length_append, List.length_append, isDDD_length _ h1, isDDD_length _ h2] at hlen
  have e1 : ("PPPOE_".toList).length = 6 := by decide
  have e2 : ("PPPOE_NAT_".toList).length = 10 := by decide
  rw [e1, e2] at hlen
  omega

/-- Any group name that can appear in a change list is a non-empty,
space-free, newline-free token. -/
theorem group_wf (pre num : Str) (hnum : isDDD num = true)
    (hp1 : ∀ c ∈ pre, notSp c = true) (hp2 : ∀ c ∈ pre, ¬c = '\n') (hpre : ¬pre = []) :
    ¬(pre ++ num) = [] ∧ (∀ c ∈ pre ++ num, notSp c = true) ∧
      (∀ c ∈ pre ++ num, ¬c = '\n') := by
  refine ⟨?_, ?_, ?_⟩
  · cases pre with
    | nil => exact absurd rfl hpre
    | cons a t => simp
  · intro c hc
    rcases List.mem_append.mp hc with h | h
    · exact hp1 c h
    · exact isDDD_notSp num hnum c h
  · intro c hc
    rcases List.mem_append.mp hc with h | h
    · exact hp2 c h
    · exact isDDD_ne_nl num hnum c h

theorem changes_group_wf (pairs : List (Str × Int)) (cur : Dict) (ch : List (Str × Int))
    (hc : changes pairs cur = some ch) :
    ∀ q ∈ ch, ¬q.1 = [] ∧ (∀ c ∈ q.1, notSp c = true) ∧ ∀ c ∈ q.1, ¬c = '\n' := by
  intro q hq
  obtain ⟨i, num, hp, hnum, hg, hneed⟩ := changes_origin pairs cur ch hc q hq
  have hddd : isDDD num = true := (get_interface_number_some_val i num hnum).1
  rcases hg with hg | hg <;> rw [hg]
  · exact group_wf _ num hddd (by decide) (by decide) (by decide)
  · exact group_wf _ num hddd (by decide) (by decide) (by decide)

/-! ## The second pass needs no change after folding the batch back -/

theorem needed_false_after (pairs : List (Str × Int)) (cur : Dict) (ch : List (Str × Int))
    (hc : changes pairs cur = some ch)
    (hcons : ∀ i1 d1 i2 d2, (i1, d1) ∈ pairs → (i2, d2) ∈ pairs →
      get_interface_number i1 = get_interface_number i2 → d1 = d2)
    (i : Str) (d : Int) (hp : (i, d) ∈ pairs) (num : Str)
    (hnum : get_interface_number i = some num) (g : Str)
    (hg : g = "PPPOE_".toList ++ num ∨ g = "PPPOE_NAT_".toList ++ num) :
    is_pado_change_needed g d (applyChanges cur ch) = false := by
  have hddd : isDDD num = true := (get_interface_number_some_val i num hnum).1
  have huniq : ∀ d', (g, d') ∈ ch → d' = d := by
    intro d' hd'
    obtain ⟨i2, num2, hp2, hnum2, hg2, hneed2⟩ :=
      changes_origin pairs cur ch hc (g, d') hd'
    have hddd2 : isDDD num2 = true := (get_interface_number_some_val i2 num2 hnum2).1
    have hnumeq : num2 = num := by
      rcases hg with rfl | rfl <;> rcases hg2 with h2 | h2
      · exact (List.append_cancel_left h2).symm
      · exact absurd h2 (group_ne_cross num num2 hddd hddd2)
      · exact absurd h2.symm (group_ne_cross num2 num hddd2 hddd)
      · exact (List.append_cancel_left h2).symm
    exact hcons i2 d' i d hp2 hp (by rw [hnum2, hnum, hnumeq])
  by_cases hmem : ∃ d', (g, d') ∈ ch
  · have hlk : lookup (applyChanges cur ch) g = some d :=
      applyChanges_const ch cur g d hmem huniq
    rw [is_pado_change_needed, hlk]
    simp
  · push_neg at hmem
    have hlk : lookup (applyChanges cur ch) g = lookup cur g :=
      applyChanges_not_mem ch cur g hmem
    cases hcur : lookup cur g with
    | none => rw [is_pado_change_needed, hlk, hcur]
    | some v =>
      by_cases hv : d = v
      · rw [is_pado_change_needed, hlk, hcur]
        simp [hv]
      · have hneed : is_pado_change_needed g d cur = true := by
          rw [is_pado_change_needed, hcur]
          simp [hv]
        have hb : get_bba_group_names i =
            some ("PPPOE_".toList ++ num, "PPPOE_NAT_".toList ++ num) := by
          rw [get_bba_group_names, hnum]
          rfl
        have hcpl := changes_complete pairs cur ch hc i d hp _ _ hb
        rcases hg with rfl | rfl
        · exact absurd (hcpl.1 hneed) (hmem d)
        · exact absurd (hcpl.2 hneed) (hmem d)

/-! ## Splitting and joining lines -/

theorem splitNl_no_nl (l : Str) (h : ∀ c ∈ l, ¬c = '\n') : splitNl l = [l] := by
  induction l with
  | nil => rfl
  | cons c t ih =>
    rw [splitNl, if_neg (h c (by simp)), ih fun c hc => h c (by simp [hc])]

theorem splitNl_append_nl (l rest : Str) (h : ∀ c ∈ l, ¬c = '\n') :
    splitNl (l ++ '\n' :: rest) = l :: splitNl rest := by
  induction l with
  | nil => simp [splitNl]
  | cons c t ih =>
    rw [List.cons_append, splitNl, if_neg (h c (by simp)),
      ih fun c hc => h c (by simp [hc])]

theorem splitNl_joinNl (lines : List Str) (hne : ¬lines = [])
    (h : ∀ l ∈ lines, ∀ c ∈ l, ¬c = '\n') : splitNl (joinNl lines) = lines := by
  induction lines with
  | nil => exact absurd rfl hne
  | cons l ls ih =>
    cases ls with
    | nil => exact splitNl_no_nl l (h l (by simp))
    | cons l2 ls2 =>
      rw [joinNl, splitNl_append_nl l _ (h l (by simp))]
      rw [ih (by simp) fun q hq c hc => h q (by simp [hq]) c hc]

/-! ## Remaining helper lemmas -/

theorem renderChunks_mem (ch : List (Str × Int)) (c : Str) (hc : c ∈ renderChunks ch) :
    ∃ q ∈ ch, c = selCmd q.1 ∨ c = delCmd q.2 := by
  induction ch with
  | nil => simp [renderChunks] at hc
  | cons q r ih =>
    obtain ⟨g, d⟩ := q
    rw [renderChunks] at hc
    rcases List.mem_cons.mp hc with rfl | hc2
    · exact ⟨(g, d), by simp, Or.inl rfl⟩
    · rcases List.mem_cons.mp hc2 with rfl | hc3
      · exact ⟨(g, d), by simp, Or.inr rfl⟩
      · obtain ⟨q', hq', hor⟩ := ih hc3
        exact ⟨q', by simp [hq'], hor⟩

theorem selCmd_no_nl (g : Str) (hg : ∀ c ∈ g, ¬c = '\n') : ∀ c ∈ selCmd g, ¬c = '\n' := by
  intro c hc
  rcases List.mem_append.mp hc with h | h
  · exact (by decide : ∀ c ∈ "bba-group pppoe ".toList, ¬c = '\n') c h
  · exact hg c h

theorem delCmd_no_nl (d : Int) : ∀ c ∈ delCmd d, ¬c = '\n' := by
  intro c hc
  rcases List.mem_append.mp hc with h | h
  · exact (by decide : ∀ c ∈ "pado delay ".toList, ¬c = '\n') c h
  · exact intStr_ne_nl d c h

theorem indentRender_no_nl (ch : List (Str × Int))
    (hwf : ∀ q ∈ ch, ∀ c ∈ q.1, ¬c = '\n') :
    ∀ l ∈ indentCommit (renderChunks ch), ∀ c ∈ l, ¬c = '\n' := by
  intro l hl
  rw [show indentCommit (renderChunks ch) =
    (renderChunks ch).map (fun c => if ("pado delay ".toList).isPrefixOf c
      then ' ' :: c else c) from rfl] at hl
  obtain ⟨l0, hl0, rfl⟩ := List.mem_map.mp hl
  obtain ⟨q, hq, hor⟩ := renderChunks_mem ch l0 hl0
  rcases hor with rfl | rfl
  · rw [if_neg (by rw [delGuard_on_sel]; exact Bool.false_ne_true)]
    exact selCmd_no_nl q.1 (hwf q hq)
  · rw [if_pos (by rw [delCmd]; exact isPrefixOf_append_self _ _)]
    intro c hc
    rcases List.mem_cons.mp hc with rfl | hc2
    · decide
    · exact delCmd_no_nl q.2 c hc2

theorem specPairCmds_eq (cur : Dict) (d : Int) (g : Str) :
    specPairCmds cur d g =
      (if is_pado_change_needed g d cur then [selCmd g, delCmd d] else []) := by
  unfold specPairCmds is_pado_change_needed
  rw [contains_iff_lookup_isSome]
  cases hl : lookup cur g with
  | none => simp
  | some v =>
    by_cases hv : d = v
    · subst hv
      simp
    · rw [if_pos ⟨rfl, by simp [Option.some.injEq]; exact fun hh => hv hh.symm⟩,
        if_pos (by simp [hv])]

theorem changes_names (pairs : List (Str × Int)) (cur : Dict) (ch : List (Str × Int))
    (hc : changes pairs cur = some ch) :
    ∀ i d, (i, d) ∈ pairs → ∃ num, get_interface_number i = some num := by
  induction pairs generalizing ch with
  | nil => intro i d h; simp at h
  | cons pd rest ih =>
    obtain ⟨i1, d1⟩ := pd
    rw [changes] at hc
    cases hb : get_bba_group_names i1 with
    | none => rw [hb] at hc; cases hc
    | some pn =>
      obtain ⟨p, n⟩ := pn
      rw [hb] at hc
      cases hrest : changes rest cur with
      | none => rw [hrest] at hc; cases hc
      | some ch' =>
        intro i d hp
        rcases List.mem_cons.mp hp with he | hr
        · obtain ⟨he1, he2⟩ : i = i1 ∧ d = d1 := by cases he; exact ⟨rfl, rfl⟩
          obtain ⟨num, hnum, -, -⟩ := bba_some i1 p n hb
          exact ⟨num, he1 ▸ hnum⟩
        · exact ih ch' hrest i d hr

theorem findallFuel_none (f : Nat) (s : Str)
    (h : ∀ i, i < s.length → matchAt (s.drop i) = none) : findallFuel f s = [] := by
  induction f generalizing s with
  | zero => rfl
  | succ f ih =>
    cases s with
    | nil => rfl
    | cons c t =>
      rw [findallFuel]
      rw [show matchAt (c :: t) = none from h 0 (by simp)]
      exact ih t fun i hi => h (i + 1) (by simpa using hi)

theorem parseLines_none_of_delayBefore (lines : List Str) (m : Dict)
    (h : delayBeforeGroup lines = true) : parseLines lines none m = none := by
  induction lines generalizing m with
  | nil => cases h
  | cons l rest ih =>
    rw [delayBeforeGroup] at h
    by_cases hg : ("bba-group pppoe".toList).isPrefixOf l = true
    · rw [if_pos hg] at h
      cases h
    · rw [if_neg hg] at h
      by_cases hd : (" pado delay".toList).isPrefixOf l = true
      · rw [parseLines, parseLine, if_neg hg, if_pos hd]
        cases hft : findTok "pado delay ".toList l with
        | none => rfl
        | some tok =>
          cases hpi : pyInt? tok with
          | none => simp [hpi]
          | some d => simp [hpi]
      · rw [if_neg hd] at h
        rw [parseLines, parseLine, if_neg hg, if_neg hd, Option.some_bind]
        exact ih m h

theorem parseLines_isSome_of_linesOk (lines : List Str) (cursor : Option Str) (m : Dict)
    (seen : Bool) (h : linesOk lines seen = true)
    (hcur : seen = true → ∃ g, cursor = some g) :
    (parseLines lines cursor m).isSome = true := by
  induction lines generalizing cursor m seen with
  | nil => rfl
  | cons l rest ih =>
    rw [linesOk] at h
    by_cases hg : ("bba-group pppoe".toList).isPrefixOf l = true
    · rw [if_pos hg] at h
      cases hft : findTok "bba-group pppoe ".toList l with
      | none => rw [hft] at h; cases h
      | some g =>
        rw [hft] at h
        rw [parseLines, parseLine, if_pos hg, hft, Option.some_bind]
        exact ih _ _ true h fun _ => ⟨g, rfl⟩
    · rw [if_neg hg] at h
      by_cases hd : (" pado delay".toList).isPrefixOf l = true
      · rw [if_pos hd] at h
        cases hft : findTok "pado delay ".toList l with
        | none => rw [hft] at h; cases h
        | some tok =>
          rw [hft] at h
          simp only [Bool.and_eq_true] at h
          obtain ⟨⟨hseen, hps⟩, hrest⟩ := h
          obtain ⟨g, rfl⟩ := hcur hseen
          cases hpi : pyInt? tok with
          | none => rw [hpi] at hps; cases hps
          | some d =>
            rw [parseLines, parseLine, if_neg hg, if_pos hd, hft]
            simp only [hpi, Option.some_bind]
            exact ih _ _ seen hrest fun _ => ⟨g, rfl⟩
      · rw [if_neg hd] at h
        rw [parseLines, parseLine, if_neg hg, if_neg hd, Option.some_bind]
        exact ih cursor m seen h hcur

/-! # Claim theorems -/

/-- C1: every command emitted by `create_pado_config_set` is either a
select-group command for a group that is a key of the current map, or a
set-delay command carrying no group name at all; a group absent from the
current map is never configured. -/
theorem c1_batch_only_known_groups (pairs : List (Str × Int)) (cur : Dict)
    (batch : List Str) (h : create_pado_config_set pairs cur = some batch) :
    ∀ c ∈ batch, (∃ g, c = selCmd g ∧ (lookup cur g).isSome = true) ∨ ∃ d, c = delCmd d := by
  rw [create_eq_changes] at h
  cases hch : changes pairs cur with
  | none => rw [hch] at h; cases h
  | some ch =>
    rw [hch] at h
    obtain rfl : renderChunks ch = batch := Option.some.inj (by simpa using h)
    intro c hc
    obtain ⟨q, hq, hsel | hdel⟩ := renderChunks_mem ch c hc
    · exact Or.inl ⟨q.1, hsel, changes_keys pairs cur ch hch q hq⟩
    · exact Or.inr ⟨q.2, hdel⟩

/-- Witness for C1, Scenario C: currentMap holds `PPPOE_0/1/2` (at 0) but
not `PPPOE_NAT_0/1/2`; the batch touches only `PPPOE_0/1/2`. -/
theorem c1_witness :
    create_pado_config_set [("Gi0/1/2".toList, 256)] [("PPPOE_0/1/2".toList, 0)] =
      some ["bba-group pppoe PPPOE_0/1/2".toList, "pado delay 256".toList] ∧
    ∀ c ∈ ["bba-group pppoe PPPOE_0/1/2".toList, "pado delay 256".toList],
      (∃ g, c = selCmd g ∧ (lookup [("PPPOE_0/1/2".toList, 0)] g).isSome = true) ∨
      ∃ d, c = delCmd d :=
  ⟨by decide,
    c1_batch_only_known_groups [("Gi0/1/2".toList, 256)] [("PPPOE_0/1/2".toList, 0)] _
      (by decide)⟩

/-- C2: with strictly increasing boundaries, `get_pado_delay` computes
exactly the spec ladder semantics on the ladder
`[(threshold_256, 256), (threshold_512, 512), (threshold_9999, 9999)]`:
0 below the first boundary, otherwise the delay of the last entry whose
boundary is at most the session count. -/
theorem c2_classify_matches_ladder (s t1 t2 t3 : Int) (h1 : t1 < t2) (h2 : t2 < t3) :
    get_pado_delay s t1 t2 t3 =
      classifyDelaySpec s [(t1, 256), (t2, 512), (t3, 9999)] := by
  simp only [get_pado_delay, classifyDelaySpec, lastLE]
  split_ifs <;> omega

/-- Witness for C2 at a concrete ladder and session count. -/
theorem c2_witness :
    get_pado_delay 150 100 200 300 =
      classifyDelaySpec 150 [(100, 256), (200, 512), (300, 9999)] :=
  c2_classify_matches_ladder 150 100 200 300 (by decide) (by decide)

/-- C5: `get_interfaces_and_sessions` is total (it returns a list on every
raw input instead of raising), it returns the empty sequence when the
pattern matches at no position, and on a text with one well-formed line and
one line whose count is non-numeric it returns exactly the one well-formed
sample, skipping the malformed line. -/
theorem c5_parse_sessions_total :
    (∀ s : Str, (∀ i, i < s.length → matchAt (s.drop i) = none) →
      get_interfaces_and_sessions s = []) ∧
    get_interfaces_and_sessions "Gi0/1/2        412\nGi0/1/3        abc".toList =
      [("Gi0/1/2".toList, "412".toList)] := by
  constructor
  · intro s h
    exact findallFuel_none s.length s h
  · decide

/-- Witness for C5: a line whose interface pattern partially matches but
whose count is non-numeric yields no sample at all. -/
theorem c5_witness : get_interfaces_and_sessions "Gi0/1/2 abc".toList = [] :=
  c5_parse_sessions_total.1 _ (by decide)

/-- C6: with strictly increasing boundaries the classifier is monotonically
non-decreasing in the session count. -/
theorem c6_classify_monotone (c c' t1 t2 t3 : Int) (h1 : t1 < t2) (h2 : t2 < t3)
    (hcc : c ≤ c') :
    get_pado_delay c t1 t2 t3 ≤ get_pado_delay c' t1 t2 t3 := by
  simp only [get_pado_delay]
  split_ifs <;> omega

/-- Witness for C6 at concrete counts. -/
theorem c6_witness : get_pado_delay 150 100 200 300 ≤ get_pado_delay 250 100 200 300 :=
  c6_classify_monotone 150 250 100 200 300 (by decide) (by decide) (by decide)

/-- C7: on every interface name containing a `\d/\d/\d` window preceded by
a non-space character, `get_bba_group_names` returns exactly the pair
`("PPPOE_" ++ number, "PPPOE_NAT_" ++ number)` — uppercase, differing only
by the fixed `NAT_` infix — where `number` is the extracted interface
number; it is a pure function of the name. -/
theorem c7_derive_group_names (s : Str) (h : containsNum s = true) :
    ∃ num, get_interface_number s = some num ∧
      get_bba_group_names s = some ("PPPOE_".toList ++ num, "PPPOE_NAT_".toList ++ num) := by
  have hs : (get_interface_number s).isSome = true := by
    rw [get_interface_number_isSome, h]
  cases hn : get_interface_number s with
  | none => rw [hn] at hs; cases hs
  | some num =>
    refine ⟨num, rfl, ?_⟩
    rw [get_bba_group_names, hn]
    rfl

/-- Witness for C7 at `"Gi0/1/2"`. -/
theorem c7_witness :
    containsNum "Gi0/1/2".toList = true ∧
    ∃ num, get_interface_number "Gi0/1/2".toList = some num ∧
      get_bba_group_names "Gi0/1/2".toList =
        some ("PPPOE_".toList ++ num, "PPPOE_NAT_".toList ++ num) :=
  ⟨by decide, c7_derive_group_names _ (by decide)⟩

/-- C8: the batch built by `create_pado_config_set` equals the batch
described by the spec: for each desired pair in input order, a
(select-group, set-delay) command pair for each of the two derived groups
that is present in the current map with a differing delay, primary group
first, then NAT group. -/
theorem c8_batch_order_spec (pairs : List (Str × Int)) (cur : Dict) :
    create_pado_config_set pairs cur = computeChangesSpec pairs cur := by
  induction pairs with
  | nil => rfl
  | cons pd rest ih =>
    obtain ⟨i, d⟩ := pd
    rw [create_pado_config_set, computeChangesSpec, ih]
    cases hb : get_bba_group_names i with
    | none => rfl
    | some pn =>
      obtain ⟨p, n⟩ := pn
      cases hc : computeChangesSpec rest cur with
      | none => rfl
      | some b =>
        show some ((if is_pado_change_needed p d cur then [selCmd p, delCmd d] else []) ++
            (if is_pado_change_needed n d cur then [selCmd n, delCmd d] else []) ++ b) =
          some (specPairCmds cur d p ++ specPairCmds cur d n ++ b)
        rw [specPairCmds_eq, specPairCmds_eq]

/-- `lastWin` on a bare `\d/\d/\d` window finds exactly that window. -/
theorem lastWin_ddd (w : Str) (h : isDDD w = true) : lastWin w = some w := by
  obtain ⟨c1, c3, c5, rfl, h1, h3, h5⟩ := isDDD_shape w h
  have n1 : ¬isSp c1 = true := by
    have := dig_notSp c1 h1
    simp [notSp] at this
    simp [this]
  have n3 : ¬isSp c3 = true := by
    have := dig_notSp c3 h3
    simp [notSp] at this
    simp [this]
  have n5 : ¬isSp c5 = true := by
    have := dig_notSp c5 h5
    simp [notSp] at this
    simp [this]
  have nsl : ¬isSp '/' = true := by decide
  have e4 : lastWin [c5] = none := by
    rw [lastWin, if_neg n5]
    rfl
  have e3 : lastWin ['/', c5] = none := by
    rw [lastWin, if_neg nsl, e4]
    rfl
  have e2 : lastWin [c3, '/', c5] = none := by
    rw [lastWin, if_neg n3, e3]
    rfl
  have e1 : lastWin ['/', c3, '/', c5] = none := by
    rw [lastWin, if_neg nsl, e2]
    rfl
  rw [lastWin, if_neg n1, e1]
  rw [if_pos (show isDDD (List.take 5 [c1, '/', c3, '/', c5]) = true from h)]
  rfl

/-- `lastWin` on a non-space run ending in a `\d/\d/\d` window returns that
trailing window. -/
theorem lastWin_trailing (mid w : Str) (hw : isDDD w = true)
    (hmid : ∀ c ∈ mid, notSp c = true) : lastWin (mid ++ w) = some w := by
  induction mid with
  | nil => simpa using lastWin_ddd w hw
  | cons c mid' ih =>
    have hc : ¬isSp c = true := by
      have := hmid c (by simp)
      simp [notSp] at this
      simp [this]
    rw [List.cons_append, lastWin, if_neg hc,
      ih fun x hx => hmid x (by simp [hx])]

/-- On a single non-space run ending in a `\d/\d/\d` suffix — the physical
interface form in scope — `get_interface_number` returns exactly that
trailing suffix. -/
theorem get_interface_number_trailing (pre w : Str) (hpre : ¬pre = [])
    (hns : ∀ c ∈ pre, notSp c = true) (hw : isDDD w = true) :
    get_interface_number (pre ++ w) = some w := by
  cases pre with
  | nil => exact absurd rfl hpre
  | cons c pre' =>
    have hc : ¬isSp c = true := by
      have := hns c (by simp)
      simp [notSp] at this
      simp [this]
    rw [List.cons_append, get_interface_number, if_neg hc,
      lastWin_trailing pre' w hw fun x hx => hns x (by simp [hx])]

/-- Counterexample to C9 as stated: `"0/1/2"` consists of a `D/D/D` numeric
suffix (the whole name matches `\d/\d/\d`), yet `get_interface_number`
raises, because `\S+` needs at least one character before the captured
window; and `"Aa1/2/3 Bb4/5/6"` has the trailing suffix `"4/5/6"` yet the
function returns `"1/2/3"`, the window of the first (leftmost) run. -/
theorem c9_counterexample :
    isDDD "0/1/2".toList = true ∧
    get_interface_number "0/1/2".toList = none ∧
    get_interface_number "Aa1/2/3 Bb4/5/6".toList = some "1/2/3".toList ∧
    ¬("1/2/3".toList = "4/5/6".toList) :=
  ⟨by decide, by decide, by decide, by decide⟩

/-- C9 (amended): `get_interface_number` fails with an error result (`none`,
the modelled `AttributeError`) exactly when the name contains no `\d/\d/\d`
window immediately preceded by a non-space character — so every name
without a `D/D/D`-style suffix fails, but a bare `D/D/D` name fails too.
On success the returned string is a `\d/\d/\d` window occurring
contiguously inside the name, and when the name is a single non-space run
ending in a `D/D/D` suffix (the physical-interface form in scope) it is
exactly that trailing suffix. -/
theorem c9_interface_number_corrected :
    (∀ s : Str, (get_interface_number s = none ↔ containsNum s = false) ∧
      ∀ w, get_interface_number s = some w →
        isDDD w = true ∧ ∃ a b, s = a ++ w ++ b) ∧
    ∀ pre w : Str, ¬pre = [] → (∀ c ∈ pre, notSp c = true) → isDDD w = true →
      get_interface_number (pre ++ w) = some w := by
  constructor
  · intro s
    constructor
    · constructor
      · intro h
        have hs := get_interface_number_isSome s
        rw [h] at hs
        exact hs.symm
      · intro h
        have hs := get_interface_number_isSome s
        rw [h] at hs
        cases hn : get_interface_number s with
        | none => rfl
        | some w => rw [hn] at hs; cases hs
    · exact get_interface_number_some_val s
  · exact get_interface_number_trailing

/-- Witness for C9 (amended): a name with no number errors; a physical
interface name returns its trailing suffix. -/
theorem c9_corrected_witness :
    get_interface_number "Ethernet".toList = none ∧
    get_interface_number ("Gi".toList ++ "0/1/2".toList) = some "0/1/2".toList :=
  ⟨(c9_interface_number_corrected.1 _).1.mpr (by decide),
   c9_interface_number_corrected.2 "Gi".toList "0/1/2".toList (by decide) (by decide)
     (by decide)⟩

/-- Counterexample to C3 as stated: the batch's set-delay commands carry no
leading space, and the parser's delay branch requires one
(`line.startswith(' pado delay')`), so parsing the literally concatenated
batch returns the changed group at delay 0, not at the delay 256 the batch
set. -/
theorem c3_counterexample :
    create_pado_config_set [("Gi0/1/2".toList, 256)] [("PPPOE_0/1/2".toList, 0)] =
      some ["bba-group pppoe PPPOE_0/1/2".toList, "pado delay 256".toList] ∧
    get_pado_delay_current_dict
      (joinNl ["bba-group pppoe PPPOE_0/1/2".toList, "pado delay 256".toList]) =
      some [("PPPOE_0/1/2".toList, 0)] ∧
    ¬(some ((0 : Int)) = some ((256 : Int))) :=
  ⟨by decide, by decide, by decide⟩

/-- C3 (amended): parsing the batch in its committed running-config form —
joined with newlines and each set-delay line indented by one space —
reconstructs exactly the delay values the batch set: the result is the map
obtained by folding the batch's (select-group, set-delay) commands into an
empty map. -/
theorem c3_roundtrip_committed (pairs : List (Str × Int)) (cur : Dict) (batch : List Str)
    (h : create_pado_config_set pairs cur = some batch) :
    get_pado_delay_current_dict (joinNl (indentCommit batch)) =
      some (foldBatch [] batch none) := by
  rw [create_eq_changes] at h
  cases hch : changes pairs cur with
  | none => rw [hch] at h; cases h
  | some ch =>
    rw [hch] at h
    obtain rfl : renderChunks ch = batch := Option.some.inj (by simpa using h)
    rw [foldBatch_render]
    have hwf := changes_group_wf pairs cur ch hch
    cases ch with
    | nil => decide
    | cons q ch2 =>
      have hne : ¬indentCommit (renderChunks (q :: ch2)) = [] := by
        obtain ⟨g, d⟩ := q
        rw [renderChunks, indentCommit_cons]
        simp
      rw [get_pado_delay_current_dict,
        splitNl_joinNl _ hne (indentRender_no_nl (q :: ch2) fun r hr => (hwf r hr).2.2)]
      exact parseLines_indentRender (q :: ch2) none []
        fun r hr => ⟨(hwf r hr).1, (hwf r hr).2.1⟩

/-- Witness for C3 (amended), Scenario B: both groups present at 0, desired
delay 256; parsing the committed batch gives both groups at 256. -/
theorem c3_witness :
    get_pado_delay_current_dict (joinNl (indentCommit
      ["bba-group pppoe PPPOE_0/1/2".toList, "pado delay 256".toList,
       "bba-group pppoe PPPOE_NAT_0/1/2".toList, "pado delay 256".toList])) =
      some (foldBatch []
        ["bba-group pppoe PPPOE_0/1/2".toList, "pado delay 256".toList,
         "bba-group pppoe PPPOE_NAT_0/1/2".toList, "pado delay 256".toList] none) :=
  c3_roundtrip_committed [("Gi0/1/2".toList, 256)]
    [("PPPOE_0/1/2".toList, 0), ("PPPOE_NAT_0/1/2".toList, 0)] _ (by decide)

/-- Counterexample to C4 as stated: two desired pairs with the same
interface but conflicting delays; after the first batch is folded back the
second run still emits commands (the first pair's delay no longer matches
the map, which ended at the second pair's delay). -/
theorem c4_counterexample :
    create_pado_config_set [("Gi0/1/2".toList, 256), ("Gi0/1/2".toList, 512)]
      [("PPPOE_0/1/2".toList, 0)] =
      some ["bba-group pppoe PPPOE_0/1/2".toList, "pado delay 256".toList,
            "bba-group pppoe PPPOE_0/1/2".toList, "pado delay 512".toList] ∧
    ¬(create_pado_config_set [("Gi0/1/2".toList, 256), ("Gi0/1/2".toList, 512)]
      (foldBatch [("PPPOE_0/1/2".toList, 0)]
        ["bba-group pppoe PPPOE_0/1/2".toList, "pado delay 256".toList,
         "bba-group pppoe PPPOE_0/1/2".toList, "pado delay 512".toList] none) =
      some []) :=
  ⟨by decide, by decide⟩

/-- C4 (amended): if any two desired pairs whose interfaces carry the same
extracted interface number agree on the desired delay, then folding the
first batch back into the current map and running the diff engine again
with the same desired pairs yields an empty batch. -/
theorem c4_idempotent_consistent (pairs : List (Str × Int)) (cur : Dict)
    (batch : List Str)
    (hcons : ∀ i1 d1 i2 d2, (i1, d1) ∈ pairs → (i2, d2) ∈ pairs →
      get_interface_number i1 = get_interface_number i2 → d1 = d2)
    (h : create_pado_config_set pairs cur = some batch) :
    create_pado_config_set pairs (foldBatch cur batch none) = some [] := by
  rw [create_eq_changes] at h
  cases hch : changes pairs cur with
  | none => rw [hch] at h; cases h
  | some ch =>
    rw [hch] at h
    obtain rfl : renderChunks ch = batch := Option.some.inj (by simpa using h)
    rw [foldBatch_render, create_eq_changes, changes_nil_of]
    · rfl
    · intro i d hp
      obtain ⟨num, hnum⟩ := changes_names pairs cur ch hch i d hp
      refine ⟨"PPPOE_".toList ++ num, "PPPOE_NAT_".toList ++ num, ?_, ?_, ?_⟩
      · rw [get_bba_group_names, hnum]
        rfl
      · exact needed_false_after pairs cur ch hch hcons i d hp num hnum _ (Or.inl rfl)
      · exact needed_false_after pairs cur ch hch hcons i d hp num hnum _ (Or.inr rfl)

/-- Witness for C4 (amended), Scenario B folded back: the second run is
empty. -/
theorem c4_witness :
    create_pado_config_set [("Gi0/1/2".toList, 256)]
      (foldBatch [("PPPOE_0/1/2".toList, 0), ("PPPOE_NAT_0/1/2".toList, 0)]
        ["bba-group pppoe PPPOE_0/1/2".toList, "pado delay 256".toList,
         "bba-group pppoe PPPOE_NAT_0/1/2".toList, "pado delay 256".toList] none) =
      some [] :=
  c4_idempotent_consistent [("Gi0/1/2".toList, 256)]
    [("PPPOE_0/1/2".toList, 0), ("PPPOE_NAT_0/1/2".toList, 0)] _
    (by
      intro i1 d1 i2 d2 h1 h2 hnum
      rw [List.mem_singleton] at h1 h2
      obtain ⟨e1, e2⟩ : i1 = "Gi0/1/2".toList ∧ d1 = 256 := by cases h1; exact ⟨rfl, rfl⟩
      obtain ⟨e3, e4⟩ : i2 = "Gi0/1/2".toList ∧ d2 = 256 := by cases h2; exact ⟨rfl, rfl⟩
      rw [e2, e4])
    (by decide)

/-- Counterexample to C10 as stated: in
`"bba-group pppoe A\n pado delay x"` every delay line follows a group line,
yet the parser does not return normally — `int('x')` raises, modelled as
`none`. -/
theorem c10_counterexample :
    delayBeforeGroup (splitNl "bba-group pppoe A\n pado delay x".toList) = false ∧
    get_pado_delay_current_dict "bba-group pppoe A\n pado delay x".toList = none :=
  ⟨by decide, by decide⟩

/-- C10 (amended): if a delay-setting line (a line starting with
`' pado delay'`) appears before any group-declaration line (a line starting
with `'bba-group pppoe'`), `get_pado_delay_current_dict` raises (returns
`none`) because the group cursor is unbound; and whenever every group line
carries a name token and every delay line follows some group line and
carries a numeric token, it returns normally, seeding each declared group
at 0 and updating the most recently declared group on each delay line. -/
theorem c10_parse_cursor (raw : Str) :
    (delayBeforeGroup (splitNl raw) = true → get_pado_delay_current_dict raw = none) ∧
    (linesOk (splitNl raw) false = true →
      (get_pado_delay_current_dict raw).isSome = true) := by
  constructor
  · intro h
    exact parseLines_none_of_delayBefore (splitNl raw) [] h
  · intro h
    exact parseLines_isSome_of_linesOk (splitNl raw) none [] false h
      (fun hf => by cases hf)

/-- Witness for C10 (amended): a delay line before any group line raises;
a well-formed section parses. -/
theorem c10_witness :
    get_pado_delay_current_dict " pado delay 5\nbba-group pppoe A".toList = none ∧
    (get_pado_delay_current_dict "bba-group pppoe A\n pado delay 300".toList).isSome
      = true :=
  ⟨(c10_parse_cursor _).1 (by decide), (c10_parse_cursor _).2 (by decide)⟩
